import Mathlib

/-
A shallow embedding of the pymorphy2 analyzer core (pymorphy2/analyzer.py):
the Parse-record data model, the Dictionary (paradigm decoding, stem and
normal-form reconstruction, per-call memoized parse, lexeme expansion,
normalization, word_is_known), and the MorphAnalyzer pipeline
(dictionary-first lookup with a chain of heuristic units, inflection by
grammeme set).

Python strings are modelled as lists of characters (`Word`); Python list
indexing, which raises IndexError when out of range, is modelled with
`getElem?` in the `Option` monad; Python slicing, which never raises, is
modelled with `List.take`/`List.drop` (negative stop indices clamp to 0,
matching Nat subtraction).  The `assert` in `Dictionary.get_lexeme` is
modelled as an `Except` error distinct from IndexError.  Python object
identity (`x is self`) between pipeline components is modelled by giving
each component a numeric identity (`MethodOwner`).  Float confidences are
modelled as rationals (the core only ever constructs 1.0 itself).
-/

set_option autoImplicit false

namespace Pymorphy

/-- A Python string, viewed as its list of characters. -/
abbrev Word := List Char

/-- A grammatical tag from the gramtab: its raw text plus its grammeme set.
The concrete Tag class is loaded dictionary data (an external collaborator);
only the grammeme set and raw text are relevant to the core. -/
structure Tag where
  raw : String
  grammemes : Finset String
deriving DecidableEq

/-- Identity of the component that produced a derivation step.  Python uses
live object references and `is`-identity; we model each component of one
analyzer by a numeric id: `dict i` is the dictionary with id `i`, `unit j`
is the heuristic unit at position `j` of the analyzer's unit list. -/
inductive MethodOwner where
  | dict (i : Nat)
  | unit (j : Nat)
deriving DecidableEq

/-- A derivation chain: `methods` field of a parse tuple. -/
abbrev Methods := List (MethodOwner × Word)

/-- The 7-tuple `(word, tag, normal_form, para_id, idx, estimate, methods)`
that `Dictionary.parse` and the units produce. -/
structure DParse where
  word : Word
  tag : Tag
  normal_form : Word
  para_id : Nat
  idx : Nat
  estimate : Rat
  methods : Methods
deriving DecidableEq

/-- The Python error classes relevant to the embedded code: `assert`
failures (AssertionError) and out-of-range indexing (IndexError). -/
inductive PyErr where
  | assertionError
  | indexError
deriving DecidableEq

deriving instance DecidableEq for Except

/-- Lift an optional value into `Except`, turning `none` into IndexError
(Python list indexing). -/
def liftO {α : Type} : Option α → Except PyErr α
  | some a => .ok a
  | none => .error .indexError

/-- The `Dictionary` object: the loaded tables plus an id standing for the
Python object's identity.  The fuzzy lexicon store (`self.words`, a DAWG)
is represented by its contents, an association list from word to attached
`(para_id, idx)` pairs.  `updGrams` models the external Tag class method
`updated_grammemes` (its category-override behavior lives in loaded
dictionary data, outside the core). -/
structure Dict where
  id : Nat
  paradigms : List (List Nat)
  gramtab : List Tag
  paradigm_prefixes : List Word
  suffixes : List Word
  lexicon : List (Word × List (Nat × Nat))
  updGrams : Tag → Finset String → Finset String

/-- Modelled from the spec: the confusable-letter policy `{е → ё}`
(`self.ee = self.words.compile_replaces({'е': 'ё'})`).  A "similar" word is
reachable by applying zero or more substitutions, i.e. by replacing any
subset of the occurrences of 'е' with 'ё'.  `eeVariants w` enumerates all
spellings reachable from `w`. -/
def eeVariants : Word → List Word
  | [] => [[]]
  | c :: cs =>
    let rest := eeVariants cs
    if c = 'е' then rest.map (fun t => c :: t) ++ rest.map (fun t => 'ё' :: t)
    else rest.map (fun t => c :: t)

/-- Modelled from the spec: `self.words.similar_items(word, self.ee)` of the
fuzzy lexicon store returns all `(corrected_word, attached_values)` pairs
whose key is reachable from `word` by the substitution rules. -/
def Dict.similar_items (d : Dict) (w : Word) : List (Word × List (Nat × Nat)) :=
  d.lexicon.filter (fun e => decide (e.1 ∈ eeVariants w))

/-- Modelled from the spec: `self.words.similar_keys(word, self.ee)`. -/
def Dict.similar_keys (d : Dict) (w : Word) : List Word :=
  (d.similar_items w).map (fun e => e.1)

/-- Modelled from the spec: exact membership `word in self.words` of the
fuzzy lexicon store (no substitutions applied). -/
def Dict.containsWord (d : Dict) (w : Word) : Bool :=
  d.lexicon.any (fun e => decide (e.1 = w))

/-- `Dictionary.build_tag_info`: `paradigm = self.paradigms[para_id]`;
`tag_info_offset = len(paradigm) // 3`;
`return self.gramtab[paradigm[tag_info_offset + idx]]`. -/
def Dict.build_tag_info (d : Dict) (para_id idx : Nat) : Option Tag := do
  let paradigm ← d.paradigms[para_id]?
  let tag_info_offset := paradigm.length / 3
  let tag_id ← paradigm[tag_info_offset + idx]?
  d.gramtab[tag_id]?

/-- `Dictionary.build_stem`: looks up the slot's prefix and suffix and
strips them by length; `fixed_word[len(prefix):-len(suffix)]` when the
suffix is non-empty, `fixed_word[len(prefix):]` otherwise. -/
def Dict.build_stem (d : Dict) (paradigm : List Nat) (idx : Nat) (fixed_word : Word) :
    Option Word := do
  let paradigm_len := paradigm.length / 3
  let prefix_id ← paradigm[paradigm_len * 2 + idx]?
  let pre ← d.paradigm_prefixes[prefix_id]?
  let suffix_id ← paradigm[idx]?
  let suf ← d.suffixes[suffix_id]?
  if suf ≠ [] then
    pure ((fixed_word.take (fixed_word.length - suf.length)).drop pre.length)
  else
    pure (fixed_word.drop pre.length)

/-- `Dictionary.build_normal_form`: slot 0 is the word itself; otherwise
strip the slot's affixes to get the stem and reassemble with slot 0's
prefix and suffix. -/
def Dict.build_normal_form (d : Dict) (para_id idx : Nat) (fixed_word : Word) :
    Option Word :=
  if idx = 0 then some fixed_word
  else do
    let paradigm ← d.paradigms[para_id]?
    let paradigm_len := paradigm.length / 3
    let stem ← d.build_stem paradigm idx fixed_word
    let normal_prefix_id ← paradigm[paradigm_len * 2 + 0]?
    let normal_suffix_id ← paradigm[0]?
    let npre ← d.paradigm_prefixes[normal_prefix_id]?
    let nsuf ← d.suffixes[normal_suffix_id]?
    pure (npre ++ stem ++ nsuf)

/-- The body of the `for idx in range(paradigm_len)` loop of
`Dictionary.build_paradigm_info`, over an explicit list of slot indices. -/
def Dict.paraInfoGo (d : Dict) (para_id : Nat) (paradigm : List Nat) (n : Nat) :
    List Nat → Option (List (Word × Tag × Word))
  | [] => some []
  | idx :: rest => do
    let prefix_id ← paradigm[n * 2 + idx]?
    let pre ← d.paradigm_prefixes[prefix_id]?
    let suffix_id ← paradigm[idx]?
    let suf ← d.suffixes[suffix_id]?
    let tg ← d.build_tag_info para_id idx
    let more ← d.paraInfoGo para_id paradigm n rest
    some ((pre, tg, suf) :: more)

/-- `Dictionary.build_paradigm_info`: the list of `(prefix, tag, suffix)`
triples of a paradigm, one per slot. -/
def Dict.build_paradigm_info (d : Dict) (para_id : Nat) :
    Option (List (Word × Tag × Word)) := do
  let paradigm ← d.paradigms[para_id]?
  let paradigm_len := paradigm.length / 3
  d.paraInfoGo para_id paradigm paradigm_len (List.range paradigm_len)

/-- The inner `for para_id, idx in parses` loop of `Dictionary.parse`,
threading the per-call `para_normal_forms` memo (an association list). -/
def Dict.parseLoop (d : Dict) (fixed_word : Word) :
    List (Nat × Nat) → List (Nat × Word) → Option (List DParse × List (Nat × Word))
  | [], memo => some ([], memo)
  | (para_id, idx) :: rest, memo => do
    let nm ←
      match memo.lookup para_id with
      | some nf => some (nf, memo)
      | none => do
        let nf ← d.build_normal_form para_id idx fixed_word
        some (nf, (para_id, nf) :: memo)
    let tg ← d.build_tag_info para_id idx
    let pm ← d.parseLoop fixed_word rest nm.2
    some (⟨fixed_word, tg, nm.1, para_id, idx, 1, [(MethodOwner.dict d.id, fixed_word)]⟩ :: pm.1,
          pm.2)

/-- The outer `for fixed_word, parses in para_data` loop of
`Dictionary.parse`; the memo is shared across corrected spellings. -/
def Dict.parseOuter (d : Dict) :
    List (Word × List (Nat × Nat)) → List (Nat × Word) → Option (List DParse × List (Nat × Word))
  | [], memo => some ([], memo)
  | (fixed_word, prs) :: rest, memo => do
    let pm ← d.parseLoop fixed_word prs memo
    let qm ← d.parseOuter rest pm.2
    some (pm.1 ++ qm.1, qm.2)

/-- `Dictionary.parse`: similar-item lookup, then the double loop with a
fresh memo. -/
def Dict.parse (d : Dict) (w : Word) : Option (List DParse) :=
  (d.parseOuter (d.similar_items w) []).map (fun r => r.1)

/-- `Dictionary.word_is_known`: exact containment when `strict_ee`, any
similar key otherwise. -/
def Dict.word_is_known (d : Dict) (w : Word) (strict_ee : Bool) : Bool :=
  if strict_ee then d.containsWord w
  else !(d.similar_keys w).isEmpty

/-- `Dictionary.get_lexeme(form, methods)`: asserts
`len(methods) == 0 or methods[0][0] is self`, recomputes the stem, then
builds `prefix + stem + suffix` for every slot of the paradigm.  Note that
the Python code re-binds the name `methods` to `form`'s own seventh field
when unpacking, so the produced records carry `form.methods`. -/
def Dict.get_lexeme (d : Dict) (form : DParse) (methods : Methods) :
    Except PyErr (List DParse) :=
  if (match methods with
      | [] => true
      | (owner, _) :: _ => owner == MethodOwner.dict d.id) then do
    let paradigm ← liftO d.paradigms[form.para_id]?
    let stem ← liftO (d.build_stem paradigm form.idx form.word)
    let info ← liftO (d.build_paradigm_info form.para_id)
    .ok (info.enum.map (fun ie =>
      ⟨ie.2.1 ++ stem ++ ie.2.2.2, ie.2.2.1, form.normal_form, form.para_id, ie.1,
       form.estimate, form.methods⟩))
  else
    .error .assertionError

/-- `Dictionary.normalized(form)`: the record itself at slot 0, otherwise a
slot-0 record with the word replaced by the normal form and the tag
recomputed for slot 0.  There is no ownership check here. -/
def Dict.normalized (d : Dict) (form : DParse) : Option DParse :=
  if form.idx = 0 then some form
  else do
    let tg ← d.build_tag_info form.para_id 0
    some ⟨form.normal_form, tg, form.normal_form, form.para_id, 0, form.estimate, form.methods⟩

/-- Decidable well-formedness of the loaded tables: every paradigm encodes
three equal-length arrays and every stored id is in range of its table.
(The loader, an external collaborator, guarantees this for real data.) -/
def Dict.WFb (d : Dict) : Bool :=
  d.paradigms.all (fun p =>
    let n := p.length / 3
    (p.length == 3 * n) &&
    (List.range n).all (fun i =>
      match p[i]?, p[n + i]?, p[2 * n + i]? with
      | some sid, some tid, some pid =>
        decide (sid < d.suffixes.length) && decide (tid < d.gramtab.length) &&
          decide (pid < d.paradigm_prefixes.length)
      | _, _, _ => false))

/-- A heuristic unit (external collaborator): its `parse(word, seen)`
operation (the shared `seen` set is threaded as a state of caller-chosen
type `σ`), its `terminal` flag, and its `get_lexeme` operation used when
derivation-chain dispatch lands on the unit. -/
structure HUnit (σ : Type) where
  parseFn : Word → σ → List DParse × σ
  terminal : Bool
  lexemeFn : DParse → Methods → Except PyErr (List DParse)

/-- A `MorphAnalyzer` (with `result_type=None`, i.e. plain tuples): its
dictionary, its configured unit sequence, and the initial value of the
per-query `seen` state (`set()` in Python). -/
structure MorphAnalyzer (σ : Type) where
  dictionary : Dict
  units : List (HUnit σ)
  seenInit : σ

/-- The `for unit in self._units:` loop of `MorphAnalyzer.parse`/`tag`:
extend the accumulated results with the unit's output, and break when the
accumulated list is non-empty and the unit is terminal.  The units carry
their positions; the second component of the result records, in order, the
positions of the units that were invoked. -/
def pipelineTr {σ : Type} (step : HUnit σ → σ → List DParse × σ) :
    List (Nat × HUnit σ) → List DParse → σ → List DParse × List Nat
  | [], res, _ => (res, [])
  | (i, u) :: rest, res, seen =>
    if !(res ++ (step u seen).1).isEmpty && u.terminal then (res ++ (step u seen).1, [i])
    else ((pipelineTr step rest (res ++ (step u seen).1) (step u seen).2).1,
          i :: (pipelineTr step rest (res ++ (step u seen).1) (step u seen).2).2)

/-- `MorphAnalyzer.parse`, instrumented with the list of invoked unit
positions: dictionary first; the unit loop runs only when the dictionary
returned no result. -/
def MorphAnalyzer.parseTr {σ : Type} (a : MorphAnalyzer σ) (w : Word) :
    Option (List DParse × List Nat) :=
  (a.dictionary.parse w).map (fun res =>
    if res.isEmpty then pipelineTr (fun u s => u.parseFn w s) a.units.enum [] a.seenInit
    else (res, []))

/-- `MorphAnalyzer.parse` proper (the returned list). -/
def MorphAnalyzer.parse {σ : Type} (a : MorphAnalyzer σ) (w : Word) : Option (List DParse) :=
  (a.parseTr w).map (fun r => r.1)

/-- `MorphAnalyzer.get_lexeme`: `methods = form[6]`, then dispatch to
`methods[-1][0].get_lexeme(form, methods)`.  An empty chain raises
IndexError (`methods[-1]`); owner ids are resolved against this analyzer's
components, modelling Python object-reference dispatch. -/
def MorphAnalyzer.get_lexeme {σ : Type} (a : MorphAnalyzer σ) (form : DParse) :
    Except PyErr (List DParse) :=
  match form.methods.getLast? with
  | none => .error .indexError
  | some (MethodOwner.dict i, _) =>
    if i = a.dictionary.id then a.dictionary.get_lexeme form form.methods
    else .error .indexError
  | some (MethodOwner.unit j, _) =>
    match a.units[j]? with
    | some u => u.lexemeFn form form.methods
    | none => .error .indexError

/-- `heapq.nlargest(1, l, key=key)` as an optional value: the earliest
element of maximal key, or `none` on the empty list (`nlargest` is
order-stable: ties are resolved in favor of earlier elements). -/
def nlargest1 {α : Type} (key : α → Nat) : List α → Option α
  | [] => none
  | a :: as =>
    match nlargest1 key as with
    | none => some a
    | some b => if key a < key b then some b else some a

/-- `MorphAnalyzer._inflect`: override grammemes, expand the lexeme, filter
to candidates whose grammemes include all required ones, and take the
single best by intersection size with the updated grammemes. -/
def MorphAnalyzer.inflectCore {σ : Type} (a : MorphAnalyzer σ) (form : DParse)
    (required_grammemes : Finset String) : Except PyErr (List DParse) := do
  let grammemes := a.dictionary.updGrams form.tag required_grammemes
  let lex ← a.get_lexeme form
  let possible_results := lex.filter (fun f => decide (required_grammemes ⊆ f.tag.grammemes))
  .ok (nlargest1 (fun f => (grammemes ∩ f.tag.grammemes).card) possible_results).toList

/-- `Parse.inflect`: `res = self._morph._inflect(self, required_grammemes);
return None if not res else res[0]`. -/
def Parse.inflect {σ : Type} (a : MorphAnalyzer σ) (form : DParse)
    (required_grammemes : Finset String) : Except PyErr (Option DParse) := do
  let res ← a.inflectCore form required_grammemes
  .ok res.head?

/- Concrete instances used to exercise the definitions. -/

/-- A singular-noun tag. -/
def tagSg : Tag := ⟨"NOUN,sg", {"NOUN", "sg"}⟩

/-- A plural-noun tag. -/
def tagPl : Tag := ⟨"NOUN,pl", {"NOUN", "pl"}⟩

/-- An uninformative tag. -/
def tagX : Tag := ⟨"X", ∅⟩

/-- A grammeme-override function distinguishing the number category:
replace sg/pl by the required grammemes, keep the rest. -/
def updNumber : Tag → Finset String → Finset String :=
  fun t req => (t.grammemes.filter (fun g => g ∉ ({"sg", "pl"} : Finset String))) ∪ req

/-- The spec's example dictionary: one paradigm with two slots,
slot 0 `(prefix "", NOUN-sg, suffix "а")`, slot 1 `(prefix "", NOUN-pl,
suffix "ы")`; the lexicon stores the slot-0 form "книга" and the slot-1
form "книгы". -/
def exKniga : Dict :=
  { id := 0
    paradigms := [[0, 1, 0, 1, 0, 0]]
    gramtab := [tagSg, tagPl]
    paradigm_prefixes := [[]]
    suffixes := ["а".data, "ы".data]
    lexicon := [("книга".data, [(0, 0)]), ("книгы".data, [(0, 1)])]
    updGrams := updNumber }

/-- The parse record `Dictionary.parse` produces for "книга". -/
def exR : DParse :=
  ⟨"книга".data, tagSg, "книга".data, 0, 0, 1, [(MethodOwner.dict 0, "книга".data)]⟩

/-- An analyzer over `exKniga` with no heuristic units. -/
def exA : MorphAnalyzer Unit := ⟨exKniga, [], ()⟩

/-- A dictionary storing only the corrected spelling "ёлка". -/
def exYolka : Dict :=
  { id := 7
    paradigms := [[0, 0, 0]]
    gramtab := [tagSg]
    paradigm_prefixes := [[]]
    suffixes := [[]]
    lexicon := [("ёлка".data, [(0, 0)])]
    updGrams := updNumber }

/-- A dictionary with an empty lexicon (every word is unknown). -/
def exEmpty : Dict :=
  { id := 0, paradigms := [], gramtab := [], paradigm_prefixes := [], suffixes := [],
    lexicon := [], updGrams := updNumber }

/-- A heuristic-unit output record. -/
def exP0 : DParse := ⟨"x".data, tagX, "x".data, 0, 0, 1, [(MethodOwner.unit 0, "x".data)]⟩

/-- Another heuristic-unit output record. -/
def exP2 : DParse := ⟨"y".data, tagX, "y".data, 0, 0, 1, [(MethodOwner.unit 2, "y".data)]⟩

/-- A non-terminal unit that produces one result. -/
def exCu0 : HUnit Unit := ⟨fun _ s => ([exP0], s), false, fun _ _ => .error .indexError⟩

/-- A terminal unit that produces no result. -/
def exCu1 : HUnit Unit := ⟨fun _ s => ([], s), true, fun _ _ => .error .indexError⟩

/-- A non-terminal unit that produces one result. -/
def exCu2 : HUnit Unit := ⟨fun _ s => ([exP2], s), false, fun _ _ => .error .indexError⟩

/-- An analyzer with an empty dictionary and the three units above. -/
def exCA : MorphAnalyzer Unit := ⟨exEmpty, [exCu0, exCu1, exCu2], ()⟩

/-- A dictionary whose single paradigm slot carries the prefix "аб" and the
suffix "в" (combined length 3). -/
def exAffix : Dict :=
  { id := 0, paradigms := [[0, 0, 0]], gramtab := [tagX],
    paradigm_prefixes := ["аб".data], suffixes := ["в".data],
    lexicon := [], updGrams := updNumber }

/-- A record whose derivation chain is owned by heuristic unit 5, not by
any dictionary. -/
def exForeignR : DParse :=
  ⟨"книгы".data, tagPl, "книга".data, 0, 1, 1, [(MethodOwner.unit 5, "книгы".data)]⟩

/-- A dictionary whose paradigm has a slot with a non-empty prefix and an
empty suffix: slot 0 `("п", _, "а")`, slot 1 `("по", _, "")`. -/
def exEmptySuf : Dict :=
  { id := 0, paradigms := [[0, 1, 0, 1, 0, 1]], gramtab := [tagSg, tagPl],
    paradigm_prefixes := ["п".data, "по".data], suffixes := ["а".data, []],
    lexicon := [], updGrams := updNumber }

/-- A dictionary whose lexicon attaches one word to two slots of the same
paradigm (homonymy within a paradigm). -/
def exHomonym : Dict :=
  { id := 0, paradigms := [[0, 1, 0, 1, 0, 0]], gramtab := [tagSg, tagPl],
    paradigm_prefixes := [[]], suffixes := ["a".data, "b".data],
    lexicon := [("za".data, [(0, 0), (0, 1)])], updGrams := updNumber }

/-- The first record `exHomonym` produces for "za". -/
def exZa0 : DParse := ⟨"za".data, tagSg, "za".data, 0, 0, 1, [(MethodOwner.dict 0, "za".data)]⟩

/-- The second record `exHomonym` produces for "za". -/
def exZa1 : DParse := ⟨"za".data, tagPl, "za".data, 0, 1, 1, [(MethodOwner.dict 0, "za".data)]⟩

/-- The slot-1 record of `exR`'s lexeme in `exKniga`. -/
def exLex1 : DParse :=
  ⟨"книгы".data, tagPl, "книга".data, 0, 1, 1, [(MethodOwner.dict 0, "книга".data)]⟩

/-- The record `exKniga` produces when parsing the inflected form "книгы". -/
def exRky : DParse :=
  ⟨"книгы".data, tagPl, "книга".data, 0, 1, 1, [(MethodOwner.dict 0, "книгы".data)]⟩

/- Helper lemmas. -/

/-- Stripping a slot's prefix and suffix by length from a word assembled as
prefix ++ stem ++ suffix recovers the stem. -/
theorem slice_append (pre st suf : Word) :
    ((pre ++ st ++ suf).take ((pre ++ st ++ suf).length - suf.length)).drop pre.length = st := by
  have h : (pre ++ st ++ suf).length - suf.length = (pre ++ st).length := by
    simp only [List.length_append]
    omega
  rw [h, List.take_left, List.drop_left]

/- Claim C3: dictionary short-circuit. -/

/-- Claim C3: if the dictionary's parse returns a non-empty list, the
analyzer's parse result is exactly that list (no heuristic unit is
invoked; the invoked-unit trace is empty), so dictionary and heuristic
results are never mixed. -/
theorem dictionary_short_circuit {σ : Type} (a : MorphAnalyzer σ) (w : Word)
    (res : List DParse) (hres : a.dictionary.parse w = some res) (hne : res ≠ []) :
    a.parseTr w = some (res, []) ∧ a.parse w = some res := by
  have h1 : a.parseTr w = some (res, []) := by
    unfold MorphAnalyzer.parseTr
    rw [hres]
    have hie : ¬(res.isEmpty = true) := by
      rw [List.isEmpty_iff]
      exact hne
    simp only [Option.map_some']
    rw [if_neg hie]
  exact ⟨h1, by unfold MorphAnalyzer.parse; rw [h1]; rfl⟩

/-- Witness for `dictionary_short_circuit`: the example dictionary knows
"книга", and an analyzer with a producing heuristic unit still returns only
the dictionary record. -/
theorem dictionary_short_circuit_wit :
    ((⟨exKniga, [exCu2], ()⟩ : MorphAnalyzer Unit).dictionary.parse "книга".data = some [exR] ∧
      ([exR] : List DParse) ≠ []) ∧
    ((⟨exKniga, [exCu2], ()⟩ : MorphAnalyzer Unit).parseTr "книга".data = some ([exR], []) ∧
      (⟨exKniga, [exCu2], ()⟩ : MorphAnalyzer Unit).parse "книга".data = some [exR]) :=
  ⟨⟨by decide, by decide⟩,
    dictionary_short_circuit (⟨exKniga, [exCu2], ()⟩ : MorphAnalyzer Unit) "книга".data [exR]
      (by decide) (by decide)⟩

/- Claim C10: strict and non-strict dictionary membership. -/

/-- Claim C10: `word_is_known` with `strict_ee = true` holds exactly when
the word as given is a lexicon key (no substitutions applied), and with
`strict_ee = false` exactly when some confusable-letter variant of the word
is a lexicon key; in particular, for a lexicon storing only "ёлка", the
strict check on "елка" is false and the non-strict check is true. -/
theorem word_is_known_correct (d : Dict) (w : Word) :
    (d.word_is_known w true = true ↔ w ∈ d.lexicon.map Prod.fst) ∧
    (d.word_is_known w false = true ↔ ∃ k ∈ d.lexicon.map Prod.fst, k ∈ eeVariants w) ∧
    exYolka.word_is_known "елка".data true = false ∧
    exYolka.word_is_known "елка".data false = true := by
  refine ⟨?_, ?_, by decide, by decide⟩
  · have h0 : d.word_is_known w true = d.containsWord w := rfl
    rw [h0]
    simp only [Dict.containsWord, List.any_eq_true, decide_eq_true_eq]
    constructor
    · rintro ⟨e, he, hew⟩
      exact List.mem_map.mpr ⟨e, he, hew⟩
    · intro hw
      obtain ⟨e, he, hew⟩ := List.mem_map.mp hw
      exact ⟨e, he, hew⟩
  · have h0 : d.word_is_known w false = !(d.similar_keys w).isEmpty := rfl
    rw [h0, Bool.not_eq_true', List.isEmpty_eq_false]
    constructor
    · intro hne2
      obtain ⟨k, hk⟩ := List.exists_mem_of_ne_nil _ hne2
      obtain ⟨e, he, rfl⟩ := List.mem_map.mp hk
      have hf := List.mem_filter.mp he
      exact ⟨e.1, List.mem_map.mpr ⟨e, hf.1, rfl⟩, by simpa using hf.2⟩
    · rintro ⟨k, hk, hv⟩
      obtain ⟨e, he, rfl⟩ := List.mem_map.mp hk
      intro hnil
      have hmem : e.1 ∈ d.similar_keys w :=
        List.mem_map.mpr ⟨e, List.mem_filter.mpr ⟨he, by simpa using hv⟩, rfl⟩
      rw [hnil] at hmem
      simp at hmem

/-- Evaluation of `build_stem` once the slot's table entries resolve: the
slice of the word, total in the word. -/
theorem build_stem_eval (d : Dict) (paradigm : List Nat) (idx : Nat) (w : Word)
    (pid sid : Nat) (pre suf : Word)
    (h1 : paradigm[paradigm.length / 3 * 2 + idx]? = some pid)
    (h2 : d.paradigm_prefixes[pid]? = some pre)
    (h3 : paradigm[idx]? = some sid)
    (h4 : d.suffixes[sid]? = some suf) :
    d.build_stem paradigm idx w =
      if suf ≠ [] then some ((w.take (w.length - suf.length)).drop pre.length)
      else some (w.drop pre.length) := by
  simp [Dict.build_stem, h1, h2, h3, h4]

/-- On a word assembled as prefix ++ stem ++ suffix, `build_stem` returns
the stem. -/
theorem build_stem_match (d : Dict) (paradigm : List Nat) (idx : Nat)
    (pid sid : Nat) (pre suf : Word)
    (h1 : paradigm[paradigm.length / 3 * 2 + idx]? = some pid)
    (h2 : d.paradigm_prefixes[pid]? = some pre)
    (h3 : paradigm[idx]? = some sid)
    (h4 : d.suffixes[sid]? = some suf)
    (st : Word) :
    d.build_stem paradigm idx (pre ++ st ++ suf) = some st := by
  rw [build_stem_eval d paradigm idx _ pid sid pre suf h1 h2 h3 h4]
  by_cases hs : suf = []
  · subst hs
    rw [if_neg (by simp)]
    simp [List.drop_left]
  · rw [if_pos hs, slice_append]

/- Claim C2: build_stem never fails on word shape. -/

/-- Claim C2 counterexample: the word "х" is shorter than the combined
length of the slot's prefix "аб" and suffix "в", yet `build_stem` does not
fail: Python slicing is total and returns the empty string. -/
theorem build_stem_cex :
    ("х".data).length < ("аб".data).length + ("в".data).length ∧
    exAffix.build_stem [0, 0, 0] 0 "х".data = some [] := by decide

/-- Claim C2 amended: once the slot's table entries resolve, `build_stem`
never fails, whatever the word's shape (slicing is by lengths and total);
on a word that structurally matches the slot it returns the true stem. -/
theorem build_stem_total (d : Dict) (paradigm : List Nat) (idx : Nat) (w : Word)
    (pid sid : Nat) (pre suf : Word)
    (h1 : paradigm[paradigm.length / 3 * 2 + idx]? = some pid)
    (h2 : d.paradigm_prefixes[pid]? = some pre)
    (h3 : paradigm[idx]? = some sid)
    (h4 : d.suffixes[sid]? = some suf) :
    (∃ s, d.build_stem paradigm idx w = some s) ∧
    (∀ st, w = pre ++ st ++ suf → d.build_stem paradigm idx w = some st) := by
  constructor
  · rw [build_stem_eval d paradigm idx w pid sid pre suf h1 h2 h3 h4]
    by_cases hs : suf = []
    · rw [if_neg (by simp [hs])]
      exact ⟨_, rfl⟩
    · rw [if_pos hs]
      exact ⟨_, rfl⟩
  · rintro st rfl
    exact build_stem_match d paradigm idx pid sid pre suf h1 h2 h3 h4 st

/-- Witness for `build_stem_total` at a matching word: stripping "аб" and
"в" from "абив" leaves "и". -/
theorem build_stem_total_wit :
    (([0, 0, 0] : List Nat)[([0, 0, 0] : List Nat).length / 3 * 2 + 0]? = some 0 ∧
      exAffix.paradigm_prefixes[0]? = some "аб".data ∧
      (([0, 0, 0] : List Nat))[0]? = some 0 ∧
      exAffix.suffixes[0]? = some "в".data) ∧
    ((∃ s, exAffix.build_stem [0, 0, 0] 0 "абив".data = some s) ∧
      (∀ st, "абив".data = "аб".data ++ st ++ "в".data →
        exAffix.build_stem [0, 0, 0] 0 "абив".data = some st)) :=
  ⟨⟨by decide, by decide, by decide, by decide⟩,
    build_stem_total exAffix [0, 0, 0] 0 "абив".data 0 0 "аб".data "в".data
      (by decide) (by decide) (by decide) (by decide)⟩

/-- Bind of an ok value in the Except monad. -/
theorem except_bind_ok {ε α β : Type} (a : α) (f : α → Except ε β) :
    (Except.ok a >>= f : Except ε β) = f a := rfl

/-- Bind of an error in the Except monad. -/
theorem except_bind_error {ε α β : Type} (e : ε) (f : α → Except ε β) :
    ((Except.error e : Except ε α) >>= f) = Except.error e := rfl

/- Claim C6: lexeme closure. -/

/-- Specification of the paradigm-info loop: one output triple per input
slot index, each recording the table lookups it came from. -/
theorem paraInfoGo_spec (d : Dict) (para_id : Nat) (paradigm : List Nat) (n : Nat) :
    ∀ (l : List Nat) (res : List (Word × Tag × Word)),
      d.paraInfoGo para_id paradigm n l = some res →
      res.length = l.length ∧
      ∀ (k j : Nat), l[k]? = some j →
        ∃ pid pre sid suf tg,
          paradigm[n * 2 + j]? = some pid ∧
          d.paradigm_prefixes[pid]? = some pre ∧
          paradigm[j]? = some sid ∧
          d.suffixes[sid]? = some suf ∧
          d.build_tag_info para_id j = some tg ∧
          res[k]? = some (pre, tg, suf) := by
  intro l
  induction l with
  | nil =>
    intro res h
    unfold Dict.paraInfoGo at h
    simp only [Option.some.injEq] at h
    subst h
    exact ⟨rfl, fun k j hk => by simp at hk⟩
  | cons j0 rest ih =>
    intro res h
    unfold Dict.paraInfoGo at h
    simp only [Option.pure_def, Option.bind_eq_bind] at h
    rw [Option.bind_eq_some] at h
    obtain ⟨pid, hpid, h⟩ := h
    rw [Option.bind_eq_some] at h
    obtain ⟨pre, hpre, h⟩ := h
    rw [Option.bind_eq_some] at h
    obtain ⟨sid, hsid, h⟩ := h
    rw [Option.bind_eq_some] at h
    obtain ⟨suf, hsuf, h⟩ := h
    rw [Option.bind_eq_some] at h
    obtain ⟨tg, htg, h⟩ := h
    rw [Option.bind_eq_some] at h
    obtain ⟨more, hmore, h⟩ := h
    simp only [Option.some.injEq] at h
    subst h
    obtain ⟨hlen, hels⟩ := ih more hmore
    refine ⟨by simp [hlen], ?_⟩
    intro k j hk
    cases k with
    | zero =>
      simp only [List.getElem?_cons_zero, Option.some.injEq] at hk
      subst hk
      exact ⟨pid, pre, sid, suf, tg, hpid, hpre, hsid, hsuf, htg, by simp⟩
    | succ k1 =>
      simp only [List.getElem?_cons_succ] at hk
      obtain ⟨pid1, pre1, sid1, suf1, tg1, h1, h2, h3, h4, h5, h6⟩ := hels k1 j hk
      exact ⟨pid1, pre1, sid1, suf1, tg1, h1, h2, h3, h4, h5, by simpa using h6⟩

/-- Inversion of `build_paradigm_info`: the paradigm lookup succeeded and
the loop ran over all slot indices. -/
theorem build_paradigm_info_inv (d : Dict) (para_id : Nat)
    (info : List (Word × Tag × Word)) (h : d.build_paradigm_info para_id = some info) :
    ∃ paradigm, d.paradigms[para_id]? = some paradigm ∧
      d.paraInfoGo para_id paradigm (paradigm.length / 3)
        (List.range (paradigm.length / 3)) = some info := by
  unfold Dict.build_paradigm_info at h
  simp only [Option.pure_def, Option.bind_eq_bind] at h
  rw [Option.bind_eq_some] at h
  obtain ⟨paradigm, hp, h⟩ := h
  exact ⟨paradigm, hp, h⟩

/-- Claim C6: every record in a successful `get_lexeme` result shares the
input record's paradigm id, normal form, confidence and derivation chain
(unchanged), the result has exactly one record per slot in slot order
(slot count records in total), and every result record reconstructs the
same stem as the input record. -/
theorem get_lexeme_closure (d : Dict) (r : DParse) (ms : Methods) (lst : List DParse)
    (h : d.get_lexeme r ms = .ok lst) :
    ∃ paradigm, d.paradigms[r.para_id]? = some paradigm ∧
      lst.length = paradigm.length / 3 ∧
      ∃ stem, d.build_stem paradigm r.idx r.word = some stem ∧
        ∀ k, k < lst.length →
          ∃ p, lst[k]? = some p ∧ p.para_id = r.para_id ∧ p.idx = k ∧
            p.normal_form = r.normal_form ∧ p.estimate = r.estimate ∧
            p.methods = r.methods ∧
            d.build_stem paradigm k p.word = some stem := by
  unfold Dict.get_lexeme at h
  split at h
  · cases hpar : d.paradigms[r.para_id]? with
    | none =>
      rw [hpar] at h
      simp only [liftO] at h
      rw [except_bind_error] at h
      exact Except.noConfusion h
    | some paradigm =>
      rw [hpar] at h
      simp only [liftO] at h
      rw [except_bind_ok] at h
      cases hstem : d.build_stem paradigm r.idx r.word with
      | none =>
        rw [hstem] at h
        simp only [liftO] at h
        rw [except_bind_error] at h
        exact Except.noConfusion h
      | some stem =>
        rw [hstem] at h
        simp only [liftO] at h
        rw [except_bind_ok] at h
        cases hinfo : d.build_paradigm_info r.para_id with
        | none =>
          rw [hinfo] at h
          simp only [liftO] at h
          rw [except_bind_error] at h
          exact Except.noConfusion h
        | some info =>
          rw [hinfo] at h
          simp only [liftO] at h
          rw [except_bind_ok, Except.ok.injEq] at h
          subst h
          obtain ⟨paradigm1, hpar1, hgo⟩ := build_paradigm_info_inv d r.para_id info hinfo
          have hpp : paradigm = paradigm1 := Option.some.inj (hpar.symm.trans hpar1)
          subst hpp
          obtain ⟨hlen, hels⟩ := paraInfoGo_spec d r.para_id paradigm (paradigm.length / 3)
            (List.range (paradigm.length / 3)) info hgo
          have hlst : (info.enum.map (fun ie =>
              (⟨ie.2.1 ++ stem ++ ie.2.2.2, ie.2.2.1, r.normal_form, r.para_id, ie.1,
                r.estimate, r.methods⟩ : DParse))).length = paradigm.length / 3 := by
            simp [List.enum_length, hlen]
          refine ⟨paradigm, rfl, hlst, stem, hstem, ?_⟩
          intro k hk
          rw [hlst] at hk
          obtain ⟨pid, pre, sid, suf, tg, h1, h2, h3, h4, h5, h6⟩ :=
            hels k k (List.getElem?_range hk)
          refine ⟨⟨pre ++ stem ++ suf, tg, r.normal_form, r.para_id, k, r.estimate,
            r.methods⟩, ?_, rfl, rfl, rfl, rfl, rfl, ?_⟩
          · rw [List.getElem?_map, List.getElem?_enum, h6]
            rfl
          · exact build_stem_match d paradigm k pid sid pre suf h1 h2 h3 h4 stem
  · exact Except.noConfusion h

/-- Witness for `get_lexeme_closure`: the lexeme of the "книга" record in
the example dictionary. -/
theorem get_lexeme_closure_wit :
    (exKniga.get_lexeme exR exR.methods = .ok [exR, exLex1]) ∧
    (∃ paradigm, exKniga.paradigms[exR.para_id]? = some paradigm ∧
      ([exR, exLex1] : List DParse).length = paradigm.length / 3 ∧
      ∃ stem, exKniga.build_stem paradigm exR.idx exR.word = some stem ∧
        ∀ k, k < ([exR, exLex1] : List DParse).length →
          ∃ p, ([exR, exLex1] : List DParse)[k]? = some p ∧ p.para_id = exR.para_id ∧
            p.idx = k ∧ p.normal_form = exR.normal_form ∧ p.estimate = exR.estimate ∧
            p.methods = exR.methods ∧
            exKniga.build_stem paradigm k p.word = some stem) :=
  ⟨by decide, get_lexeme_closure exKniga exR exR.methods [exR, exLex1] (by decide)⟩

/- Claim C7: inflection by grammeme set. -/

/-- The head of an optional value's list form is the value itself. -/
theorem toList_head {α : Type} (o : Option α) : o.toList.head? = o := by
  cases o <;> rfl

/-- Specification of `nlargest1`: it returns `none` exactly on the empty
list, and otherwise the earliest element of maximal key: every element's
key is at most the result's, and every strictly earlier element's key is
strictly smaller. -/
theorem nlargest1_spec {α : Type} (key : α → Nat) :
    ∀ l : List α,
      (nlargest1 key l = none ↔ l = []) ∧
      ∀ b, nlargest1 key l = some b →
        ∃ i, l[i]? = some b ∧
          (∀ (j : Nat) g, l[j]? = some g → key g ≤ key b) ∧
          (∀ (j : Nat), j < i → ∀ g : α, l[j]? = some g → key g < key b) := by
  intro l
  induction l with
  | nil =>
    refine ⟨by simp [nlargest1], ?_⟩
    intro b h
    simp [nlargest1] at h
  | cons a as ih =>
    constructor
    · cases has : nlargest1 key as with
      | none => simp [nlargest1, has]
      | some c =>
        unfold nlargest1
        rw [has]
        constructor
        · intro hcontra
          dsimp only at hcontra
          by_cases hkey : key a < key c
          · rw [if_pos hkey] at hcontra
            exact Option.noConfusion hcontra
          · rw [if_neg hkey] at hcontra
            exact Option.noConfusion hcontra
        · intro hcontra
          exact List.noConfusion hcontra
    · intro b h
      unfold nlargest1 at h
      cases has : nlargest1 key as with
      | none =>
        rw [has] at h
        simp only [Option.some.injEq] at h
        subst h
        have hasnil : as = [] := (ih.1).mp has
        subst hasnil
        refine ⟨0, by simp, ?_, by omega⟩
        intro j g hj
        cases j with
        | zero =>
          simp only [List.getElem?_cons_zero, Option.some.injEq] at hj
          subst hj
          exact Nat.le_refl _
        | succ j1 => simp at hj
      | some c =>
        rw [has] at h
        dsimp only at h
        obtain ⟨i, hci, hle, hlt⟩ := ih.2 c has
        by_cases hkey : key a < key c
        · rw [if_pos hkey] at h
          simp only [Option.some.injEq] at h
          subst h
          refine ⟨i + 1, by simpa using hci, ?_, ?_⟩
          · intro j g hj
            cases j with
            | zero =>
              simp only [List.getElem?_cons_zero, Option.some.injEq] at hj
              subst hj
              exact Nat.le_of_lt hkey
            | succ j1 =>
              simp only [List.getElem?_cons_succ] at hj
              exact hle j1 g hj
          · intro j hji g hj
            cases j with
            | zero =>
              simp only [List.getElem?_cons_zero, Option.some.injEq] at hj
              subst hj
              exact hkey
            | succ j1 =>
              simp only [List.getElem?_cons_succ] at hj
              exact hlt j1 (by omega) g hj
        · rw [if_neg hkey] at h
          simp only [Option.some.injEq] at h
          subst h
          refine ⟨0, by simp, ?_, by omega⟩
          intro j g hj
          cases j with
          | zero =>
            simp only [List.getElem?_cons_zero, Option.some.injEq] at hj
            subst hj
            exact Nat.le_refl _
          | succ j1 =>
            simp only [List.getElem?_cons_succ] at hj
            exact Nat.le_trans (hle j1 g hj) (Nat.le_of_not_lt hkey)

/-- Claim C7: `inflect` returns none exactly when no record of the lexeme
passes the required-grammeme superset filter; otherwise it returns a
filtered record maximizing the intersection of its grammemes with the
updated grammemes, ties broken by the earliest record in lexeme (slot)
order, and the returned record's grammemes always include every required
grammeme. -/
theorem inflect_correct {σ : Type} (a : MorphAnalyzer σ) (form : DParse)
    (G : Finset String) (lex : List DParse) (h : a.get_lexeme form = .ok lex) :
    ∃ o, Parse.inflect a form G = .ok o ∧
      (o = none ↔ lex.filter (fun f => decide (G ⊆ f.tag.grammemes)) = []) ∧
      (∀ f, o = some f →
        G ⊆ f.tag.grammemes ∧
        ∃ i, (lex.filter (fun f0 => decide (G ⊆ f0.tag.grammemes)))[i]? = some f ∧
          (∀ (j : Nat) g,
            (lex.filter (fun f0 => decide (G ⊆ f0.tag.grammemes)))[j]? = some g →
            ((a.dictionary.updGrams form.tag G) ∩ g.tag.grammemes).card ≤
              ((a.dictionary.updGrams form.tag G) ∩ f.tag.grammemes).card) ∧
          (∀ (j : Nat), j < i → ∀ g : DParse,
            (lex.filter (fun f0 => decide (G ⊆ f0.tag.grammemes)))[j]? = some g →
            ((a.dictionary.updGrams form.tag G) ∩ g.tag.grammemes).card <
              ((a.dictionary.updGrams form.tag G) ∩ f.tag.grammemes).card)) := by
  have hcore : a.inflectCore form G = .ok ((nlargest1
      (fun f => ((a.dictionary.updGrams form.tag G) ∩ f.tag.grammemes).card)
      (lex.filter (fun f => decide (G ⊆ f.tag.grammemes)))).toList) := by
    unfold MorphAnalyzer.inflectCore
    rw [h, except_bind_ok]
  have hinf : Parse.inflect a form G = .ok (nlargest1
      (fun f => ((a.dictionary.updGrams form.tag G) ∩ f.tag.grammemes).card)
      (lex.filter (fun f => decide (G ⊆ f.tag.grammemes)))) := by
    unfold Parse.inflect
    rw [hcore, except_bind_ok, toList_head]
  refine ⟨_, hinf, (nlargest1_spec _ _).1, ?_⟩
  intro f hf
  obtain ⟨i, hi, hle, hlt⟩ := (nlargest1_spec _ _).2 f hf
  refine ⟨?_, i, hi, hle, hlt⟩
  have hmem := List.getElem?_mem hi
  exact of_decide_eq_true (List.mem_filter.mp hmem).2

/-- Witness for `inflect_correct`: inflecting the "книга" record to the
plural yields the slot-1 record "книгы". -/
theorem inflect_correct_wit :
    (exA.get_lexeme exR = .ok [exR, exLex1]) ∧
    (∃ o, Parse.inflect exA exR {"pl"} = .ok o ∧
      (o = none ↔
        ([exR, exLex1] : List DParse).filter
          (fun f => decide (({"pl"} : Finset String) ⊆ f.tag.grammemes)) = []) ∧
      (∀ f, o = some f →
        ({"pl"} : Finset String) ⊆ f.tag.grammemes ∧
        ∃ i, (([exR, exLex1] : List DParse).filter
            (fun f0 => decide (({"pl"} : Finset String) ⊆ f0.tag.grammemes)))[i]? = some f ∧
          (∀ (j : Nat) g,
            (([exR, exLex1] : List DParse).filter
              (fun f0 => decide (({"pl"} : Finset String) ⊆ f0.tag.grammemes)))[j]? = some g →
            ((exA.dictionary.updGrams exR.tag {"pl"}) ∩ g.tag.grammemes).card ≤
              ((exA.dictionary.updGrams exR.tag {"pl"}) ∩ f.tag.grammemes).card) ∧
          (∀ (j : Nat), j < i → ∀ g : DParse,
            (([exR, exLex1] : List DParse).filter
              (fun f0 => decide (({"pl"} : Finset String) ⊆ f0.tag.grammemes)))[j]? = some g →
            ((exA.dictionary.updGrams exR.tag {"pl"}) ∩ g.tag.grammemes).card <
              ((exA.dictionary.updGrams exR.tag {"pl"}) ∩ f.tag.grammemes).card))) :=
  ⟨by decide, inflect_correct exA exR {"pl"} [exR, exLex1] (by decide)⟩

/- Claim C4: per-call normal-form memoization. -/

/-- Looking up the key just inserted at the front of the memo. -/
theorem lookup_cons_self {β : Type} (k : Nat) (v : β) (l : List (Nat × β)) :
    ((k, v) :: l).lookup k = some v := by
  simp [List.lookup]

/-- Looking up a different key skips the front entry of the memo. -/
theorem lookup_cons_ne {β : Type} (k a : Nat) (v : β) (l : List (Nat × β)) (h : a ≠ k) :
    ((k, v) :: l).lookup a = l.lookup a := by
  simp [List.lookup, beq_eq_false_iff_ne.mpr h]

/-- Invariant of the inner parse loop: the memo only grows (existing
entries keep their values), and every produced record's normal form is the
final memo's entry for its paradigm id. -/
theorem parseLoop_spec (d : Dict) (fw : Word) :
    ∀ (l : List (Nat × Nat)) (memo : List (Nat × Word)) (res : List DParse)
      (memo' : List (Nat × Word)),
      d.parseLoop fw l memo = some (res, memo') →
      (∀ k v, memo.lookup k = some v → memo'.lookup k = some v) ∧
      (∀ p ∈ res, memo'.lookup p.para_id = some p.normal_form) := by
  intro l
  induction l with
  | nil =>
    intro memo res memo' h
    unfold Dict.parseLoop at h
    simp only [Option.some.injEq, Prod.mk.injEq] at h
    obtain ⟨h1, h2⟩ := h
    subst h1
    subst h2
    exact ⟨fun k v hv => hv, fun p hp => absurd hp (List.not_mem_nil p)⟩
  | cons hd rest ih =>
    obtain ⟨para_id, idx⟩ := hd
    intro memo res memo' h
    unfold Dict.parseLoop at h
    simp only [Option.pure_def, Option.bind_eq_bind] at h
    have hcont : ∀ (nf : Word) (memo1 : List (Nat × Word)),
        ((d.build_tag_info para_id idx).bind fun tg =>
          (d.parseLoop fw rest memo1).bind fun pm =>
            some (⟨fw, tg, nf, para_id, idx, 1, [(MethodOwner.dict d.id, fw)]⟩ :: pm.1, pm.2))
          = some (res, memo') →
        memo1.lookup para_id = some nf →
        (∀ k v, memo.lookup k = some v → memo1.lookup k = some v) →
        (∀ k v, memo.lookup k = some v → memo'.lookup k = some v) ∧
        (∀ p ∈ res, memo'.lookup p.para_id = some p.normal_form) := by
      intro nf memo1 hc hm1 hmono1
      rw [Option.bind_eq_some] at hc
      obtain ⟨tg, _htg, hc⟩ := hc
      rw [Option.bind_eq_some] at hc
      obtain ⟨pm, hpm, hc⟩ := hc
      simp only [Option.some.injEq, Prod.mk.injEq] at hc
      obtain ⟨hres, hmem2⟩ := hc
      subst hres
      subst hmem2
      have hrest := ih memo1 pm.1 pm.2 (by rw [hpm])
      refine ⟨fun k v hv => hrest.1 k v (hmono1 k v hv), ?_⟩
      intro p hp
      rcases List.mem_cons.mp hp with hp1 | hp2
      · subst hp1
        exact hrest.1 para_id nf hm1
      · exact hrest.2 p hp2
    cases hm : memo.lookup para_id with
    | some nf =>
      rw [hm] at h
      simp only [Option.some_bind] at h
      exact hcont nf memo h hm (fun k v hv => hv)
    | none =>
      rw [hm] at h
      rw [Option.bind_eq_some] at h
      obtain ⟨nf, _hb, h⟩ := h
      simp only [Option.some_bind] at h
      refine hcont nf ((para_id, nf) :: memo) h (lookup_cons_self _ _ _) ?_
      intro k v hv
      have hk : k ≠ para_id := by
        intro hkk
        rw [hkk, hm] at hv
        exact Option.noConfusion hv
      rw [lookup_cons_ne _ _ _ _ hk]
      exact hv

/-- Invariant of the outer parse loop: same as `parseLoop_spec`, with the
memo threaded across corrected spellings. -/
theorem parseOuter_spec (d : Dict) :
    ∀ (l : List (Word × List (Nat × Nat))) (memo : List (Nat × Word)) (res : List DParse)
      (memo' : List (Nat × Word)),
      d.parseOuter l memo = some (res, memo') →
      (∀ k v, memo.lookup k = some v → memo'.lookup k = some v) ∧
      (∀ p ∈ res, memo'.lookup p.para_id = some p.normal_form) := by
  intro l
  induction l with
  | nil =>
    intro memo res memo' h
    unfold Dict.parseOuter at h
    simp only [Option.some.injEq, Prod.mk.injEq] at h
    obtain ⟨h1, h2⟩ := h
    subst h1
    subst h2
    exact ⟨fun k v hv => hv, fun p hp => absurd hp (List.not_mem_nil p)⟩
  | cons hd rest ih =>
    obtain ⟨fw, prs⟩ := hd
    intro memo res memo' h
    unfold Dict.parseOuter at h
    simp only [Option.pure_def, Option.bind_eq_bind] at h
    rw [Option.bind_eq_some] at h
    obtain ⟨pm, hpm, h⟩ := h
    rw [Option.bind_eq_some] at h
    obtain ⟨qm, hqm, h⟩ := h
    simp only [Option.some.injEq, Prod.mk.injEq] at h
    obtain ⟨hres, hmem2⟩ := h
    subst hres
    subst hmem2
    have hloop := parseLoop_spec d fw prs memo pm.1 pm.2 (by rw [hpm])
    have hrest := ih pm.2 qm.1 qm.2 (by rw [hqm])
    constructor
    · intro k v hv
      exact hrest.1 k v (hloop.1 k v hv)
    · intro p hp
      rcases List.mem_append.mp hp with hp1 | hp2
      · exact hrest.1 p.para_id p.normal_form (hloop.2 p hp1)
      · exact hrest.2 p hp2

/-- Claim C4: any two records returned by one `Dictionary.parse` call that
share a paradigm id carry equal normal forms (the normal form is computed
once per paradigm id within the call and reused), even across different
corrected spellings or slot indices. -/
theorem parse_normal_form_consistent (d : Dict) (w : Word) (res : List DParse)
    (hp : d.parse w = some res) (p q : DParse) (hpmem : p ∈ res) (hqmem : q ∈ res)
    (hpq : p.para_id = q.para_id) : p.normal_form = q.normal_form := by
  unfold Dict.parse at hp
  rw [Option.map_eq_some'] at hp
  obtain ⟨rm, hrm, hres⟩ := hp
  subst hres
  have hspec := parseOuter_spec d (d.similar_items w) [] rm.1 rm.2 (by rw [hrm])
  have h1 := hspec.2 p hpmem
  have h2 := hspec.2 q hqmem
  rw [hpq] at h1
  rw [h1] at h2
  exact Option.some.inj h2

/-- Witness for `parse_normal_form_consistent`: a word attached to two
slots of the same paradigm yields two records with the same normal form
(the second reuses the memoized value of the first). -/
theorem parse_normal_form_consistent_wit :
    (exHomonym.parse "za".data = some [exZa0, exZa1] ∧ exZa0 ∈ [exZa0, exZa1] ∧
      exZa1 ∈ [exZa0, exZa1] ∧ exZa0.para_id = exZa1.para_id) ∧
    exZa0.normal_form = exZa1.normal_form :=
  ⟨⟨by decide, by decide, by decide, by decide⟩,
    parse_normal_form_consistent exHomonym "za".data [exZa0, exZa1] (by decide) exZa0 exZa1
      (by decide) (by decide) (by decide)⟩

/- Claim C5: normalization round trip. -/

/-- Every record produced by the inner parse loop got its tag from
`build_tag_info`, has confidence 1, carries the corrected word, and a
one-step derivation chain naming the dictionary. -/
theorem parseLoop_mem (d : Dict) (fw : Word) :
    ∀ (l : List (Nat × Nat)) (memo : List (Nat × Word)) (res : List DParse)
      (memo' : List (Nat × Word)),
      d.parseLoop fw l memo = some (res, memo') →
      ∀ p ∈ res, d.build_tag_info p.para_id p.idx = some p.tag ∧ p.estimate = 1 ∧
        p.word = fw ∧ p.methods = [(MethodOwner.dict d.id, fw)] := by
  intro l
  induction l with
  | nil =>
    intro memo res memo' h p hp
    unfold Dict.parseLoop at h
    simp only [Option.some.injEq, Prod.mk.injEq] at h
    obtain ⟨h1, _⟩ := h
    subst h1
    exact absurd hp (List.not_mem_nil p)
  | cons hd rest ih =>
    obtain ⟨para_id, idx⟩ := hd
    intro memo res memo' h p hp
    unfold Dict.parseLoop at h
    simp only [Option.pure_def, Option.bind_eq_bind] at h
    have hcont : ∀ (nf : Word) (memo1 : List (Nat × Word)),
        ((d.build_tag_info para_id idx).bind fun tg =>
          (d.parseLoop fw rest memo1).bind fun pm =>
            some (⟨fw, tg, nf, para_id, idx, 1, [(MethodOwner.dict d.id, fw)]⟩ :: pm.1, pm.2))
          = some (res, memo') →
        d.build_tag_info p.para_id p.idx = some p.tag ∧ p.estimate = 1 ∧
          p.word = fw ∧ p.methods = [(MethodOwner.dict d.id, fw)] := by
      intro nf memo1 hc
      rw [Option.bind_eq_some] at hc
      obtain ⟨tg, htg, hc⟩ := hc
      rw [Option.bind_eq_some] at hc
      obtain ⟨pm, hpm, hc⟩ := hc
      simp only [Option.some.injEq, Prod.mk.injEq] at hc
      obtain ⟨hres, _⟩ := hc
      subst hres
      rcases List.mem_cons.mp hp with hp1 | hp2
      · subst hp1
        exact ⟨htg, rfl, rfl, rfl⟩
      · exact ih memo1 pm.1 pm.2 (by rw [hpm]) p hp2
    cases hm : memo.lookup para_id with
    | some nf =>
      rw [hm] at h
      simp only [Option.some_bind] at h
      exact hcont nf memo h
    | none =>
      rw [hm] at h
      rw [Option.bind_eq_some] at h
      obtain ⟨nf, _hb, h⟩ := h
      simp only [Option.some_bind] at h
      exact hcont nf ((para_id, nf) :: memo) h

/-- Every record produced by the outer parse loop got its tag from
`build_tag_info` and has confidence 1. -/
theorem parseOuter_mem (d : Dict) :
    ∀ (l : List (Word × List (Nat × Nat))) (memo : List (Nat × Word)) (res : List DParse)
      (memo' : List (Nat × Word)),
      d.parseOuter l memo = some (res, memo') →
      ∀ p ∈ res, d.build_tag_info p.para_id p.idx = some p.tag ∧ p.estimate = 1 := by
  intro l
  induction l with
  | nil =>
    intro memo res memo' h p hp
    unfold Dict.parseOuter at h
    simp only [Option.some.injEq, Prod.mk.injEq] at h
    obtain ⟨h1, _⟩ := h
    subst h1
    exact absurd hp (List.not_mem_nil p)
  | cons hd rest ih =>
    obtain ⟨fw, prs⟩ := hd
    intro memo res memo' h p hp
    unfold Dict.parseOuter at h
    simp only [Option.pure_def, Option.bind_eq_bind] at h
    rw [Option.bind_eq_some] at h
    obtain ⟨pm, hpm, h⟩ := h
    rw [Option.bind_eq_some] at h
    obtain ⟨qm, hqm, h⟩ := h
    simp only [Option.some.injEq, Prod.mk.injEq] at h
    obtain ⟨hres, _⟩ := h
    subst hres
    rcases List.mem_append.mp hp with hp1 | hp2
    · have := parseLoop_mem d fw prs memo pm.1 pm.2 (by rw [hpm]) p hp1
      exact ⟨this.1, this.2.1⟩
    · exact ih pm.2 qm.1 qm.2 (by rw [hqm]) p hp2

/-- Every record returned by `Dictionary.parse` got its tag from
`build_tag_info` and has confidence 1. -/
theorem parse_mem_tag (d : Dict) (w : Word) (res : List DParse) (hp : d.parse w = some res)
    (p : DParse) (hmem : p ∈ res) :
    d.build_tag_info p.para_id p.idx = some p.tag ∧ p.estimate = 1 := by
  unfold Dict.parse at hp
  rw [Option.map_eq_some'] at hp
  obtain ⟨rm, hrm, hres⟩ := hp
  subst hres
  exact parseOuter_mem d (d.similar_items w) [] rm.1 rm.2 (by rw [hrm]) p hmem

/-- Claim C5: for every record of a well-formed dictionary's parse result,
`normalized` succeeds, yields the same normal form and slot index 0,
returns the record unchanged when it is already at slot 0, and otherwise a
record whose word is the normal form, with the same paradigm, the tag
recomputed for slot 0, and the same confidence and derivation chain. -/
theorem normalized_round_trip (d : Dict) (w : Word) (res : List DParse) (r : DParse)
    (hwf : d.WFb = true) (hp : d.parse w = some res) (hr : r ∈ res) :
    ∃ r2, d.normalized r = some r2 ∧ r2.normal_form = r.normal_form ∧ r2.idx = 0 ∧
      (r.idx = 0 → r2 = r) ∧
      (r.idx ≠ 0 → r2.word = r.normal_form ∧ r2.para_id = r.para_id ∧
        d.build_tag_info r.para_id 0 = some r2.tag ∧ r2.estimate = r.estimate ∧
        r2.methods = r.methods) := by
  by_cases hidx : r.idx = 0
  · refine ⟨r, ?_, rfl, hidx, fun _ => rfl, fun h => absurd hidx h⟩
    unfold Dict.normalized
    rw [if_pos hidx]
  · have htag := (parse_mem_tag d w res hp r hr).1
    unfold Dict.build_tag_info at htag
    simp only [Option.pure_def, Option.bind_eq_bind] at htag
    rw [Option.bind_eq_some] at htag
    obtain ⟨paradigm, hpar, htag⟩ := htag
    rw [Option.bind_eq_some] at htag
    obtain ⟨tid, htid, _⟩ := htag
    have hparmem : paradigm ∈ d.paradigms := List.getElem?_mem hpar
    have hwf2 := (List.all_eq_true.mp hwf) paradigm hparmem
    simp only [Bool.and_eq_true, beq_iff_eq, List.all_eq_true] at hwf2
    obtain ⟨hlen3, hslots⟩ := hwf2
    obtain ⟨hlt, -⟩ := List.getElem?_eq_some.mp htid
    have hn1 : 0 < paradigm.length / 3 := by omega
    have hslot0 := hslots 0 (List.mem_range.mpr hn1)
    have hex : ∃ tg0, d.build_tag_info r.para_id 0 = some tg0 := by
      cases h0 : paradigm[(0 : Nat)]? with
      | none => rw [h0] at hslot0; simp at hslot0
      | some sid0 =>
        cases h1 : paradigm[paradigm.length / 3 + 0]? with
        | none => rw [h0, h1] at hslot0; simp at hslot0
        | some tid0 =>
          cases h2 : paradigm[2 * (paradigm.length / 3) + 0]? with
          | none => rw [h0, h1, h2] at hslot0; simp at hslot0
          | some pid0 =>
            rw [h0, h1, h2] at hslot0
            simp only [Bool.and_eq_true, decide_eq_true_eq] at hslot0
            obtain ⟨⟨-, htid0⟩, -⟩ := hslot0
            refine ⟨d.gramtab[tid0], ?_⟩
            unfold Dict.build_tag_info
            rw [hpar]
            simp only [Option.pure_def, Option.bind_eq_bind, Option.some_bind]
            rw [h1]
            simp only [Option.some_bind]
            exact List.getElem?_eq_getElem htid0
    obtain ⟨tg0, htg0⟩ := hex
    refine ⟨⟨r.normal_form, tg0, r.normal_form, r.para_id, 0, r.estimate, r.methods⟩, ?_,
      rfl, rfl, fun h => absurd h hidx, fun _ => ⟨rfl, rfl, htg0, rfl, rfl⟩⟩
    unfold Dict.normalized
    rw [if_neg hidx]
    simp only [Option.pure_def, Option.bind_eq_bind, htg0, Option.some_bind]

/-- Witness for `normalized_round_trip`: normalizing the record parsed
from the inflected form "книгы" yields the slot-0 record for "книга". -/
theorem normalized_round_trip_wit :
    (exKniga.WFb = true ∧ exKniga.parse "книгы".data = some [exRky] ∧
      exRky ∈ ([exRky] : List DParse)) ∧
    (∃ r2, exKniga.normalized exRky = some r2 ∧ r2.normal_form = exRky.normal_form ∧
      r2.idx = 0 ∧ (exRky.idx = 0 → r2 = exRky) ∧
      (exRky.idx ≠ 0 → r2.word = exRky.normal_form ∧ r2.para_id = exRky.para_id ∧
        exKniga.build_tag_info exRky.para_id 0 = some r2.tag ∧
        r2.estimate = exRky.estimate ∧ r2.methods = exRky.methods)) :=
  ⟨⟨by decide, by decide, by decide⟩,
    normalized_round_trip exKniga "книгы".data [exRky] exRky (by decide) (by decide)
      (by decide)⟩

/- Claim C8: normal-form reconstruction. -/

/-- Claim C8: `build_normal_form` at slot 0 returns the word unchanged; at
a non-zero slot, on a word assembled from the slot's prefix, a stem and
the slot's suffix, it returns slot 0's prefix ++ stem ++ slot 0's suffix;
and when the slot's suffix is empty the computed stem is the word with
only the prefix stripped (an empty suffix never strips the whole word). -/
theorem build_normal_form_correct (d : Dict) (para_id idx : Nat) (paradigm : List Nat)
    (pid sid pid0 sid0 : Nat) (pre suf pre0 suf0 : Word)
    (hp : d.paradigms[para_id]? = some paradigm)
    (h1 : paradigm[paradigm.length / 3 * 2 + idx]? = some pid)
    (h2 : d.paradigm_prefixes[pid]? = some pre)
    (h3 : paradigm[idx]? = some sid)
    (h4 : d.suffixes[sid]? = some suf)
    (h5 : paradigm[paradigm.length / 3 * 2 + 0]? = some pid0)
    (h6 : d.paradigm_prefixes[pid0]? = some pre0)
    (h7 : paradigm[0]? = some sid0)
    (h8 : d.suffixes[sid0]? = some suf0)
    (hidx : idx ≠ 0) :
    (∀ v : Word, d.build_normal_form para_id 0 v = some v) ∧
    (∀ st, d.build_normal_form para_id idx (pre ++ st ++ suf) = some (pre0 ++ st ++ suf0)) ∧
    (∀ w : Word, suf = [] → d.build_stem paradigm idx w = some (w.drop pre.length)) := by
  refine ⟨fun v => rfl, ?_, ?_⟩
  · intro st
    have hstem := build_stem_match d paradigm idx pid sid pre suf h1 h2 h3 h4 st
    unfold Dict.build_normal_form
    rw [if_neg hidx]
    simp only [hp, Option.pure_def, Option.bind_eq_bind, Option.some_bind, hstem,
      h5, h6, h7, h8]
  · intro w hsuf
    rw [build_stem_eval d paradigm idx w pid sid pre suf h1 h2 h3 h4,
      if_neg (by simp [hsuf])]

/-- Witness for `build_normal_form_correct` on a paradigm whose slot 1 has
prefix "по" and an empty suffix while slot 0 has prefix "п" and suffix
"а": the normal form of "по" ++ "ст" is "п" ++ "ст" ++ "а", and the stem
of "пост" strips only the prefix. -/
theorem build_normal_form_correct_wit :
    (exEmptySuf.paradigms[0]? = some [0, 1, 0, 1, 0, 1] ∧
      (([0, 1, 0, 1, 0, 1] : List Nat))[5]? = some 1 ∧
      exEmptySuf.paradigm_prefixes[1]? = some "по".data ∧
      (([0, 1, 0, 1, 0, 1] : List Nat))[1]? = some 1 ∧
      exEmptySuf.suffixes[1]? = some [] ∧
      (([0, 1, 0, 1, 0, 1] : List Nat))[4]? = some 0 ∧
      exEmptySuf.paradigm_prefixes[0]? = some "п".data ∧
      (([0, 1, 0, 1, 0, 1] : List Nat))[0]? = some 0 ∧
      exEmptySuf.suffixes[0]? = some "а".data ∧ (1 : Nat) ≠ 0) ∧
    ((∀ v : Word, exEmptySuf.build_normal_form 0 0 v = some v) ∧
      (∀ st, exEmptySuf.build_normal_form 0 1 ("по".data ++ st ++ []) =
        some ("п".data ++ st ++ "а".data)) ∧
      (∀ w : Word, ([] : Word) = [] →
        exEmptySuf.build_stem [0, 1, 0, 1, 0, 1] 1 w = some (w.drop "по".data.length))) :=
  ⟨⟨by decide, by decide, by decide, by decide, by decide, by decide, by decide, by decide,
      by decide, by decide⟩,
    build_normal_form_correct exEmptySuf 0 1 [0, 1, 0, 1, 0, 1] 1 1 0 0
      "по".data [] "п".data "а".data (by decide) (by decide) (by decide) (by decide)
      (by decide) (by decide) (by decide) (by decide) (by decide) (by decide)⟩

/- Claim C1: pipeline stopping behavior. -/

/-- The unit loop on an empty unit list just returns the accumulator. -/
theorem pipelineTr_nil {σ : Type} (step : HUnit σ → σ → List DParse × σ)
    (res : List DParse) (s : σ) : pipelineTr step [] res s = (res, []) := rfl

/-- The unit loop stops after a unit when the accumulated result list is
non-empty and the unit is terminal. -/
theorem pipelineTr_cons_stop {σ : Type} (step : HUnit σ → σ → List DParse × σ)
    (i : Nat) (u : HUnit σ) (rest : List (Nat × HUnit σ)) (res : List DParse) (s : σ)
    (hcond : (!(res ++ (step u s).1).isEmpty && u.terminal) = true) :
    pipelineTr step ((i, u) :: rest) res s = (res ++ (step u s).1, [i]) := by
  unfold pipelineTr
  rw [hcond, if_pos rfl]

/-- The unit loop continues past a unit when the accumulated result list is
empty or the unit is not terminal. -/
theorem pipelineTr_cons_continue {σ : Type} (step : HUnit σ → σ → List DParse × σ)
    (i : Nat) (u : HUnit σ) (rest : List (Nat × HUnit σ)) (res : List DParse) (s : σ)
    (hcond : (!(res ++ (step u s).1).isEmpty && u.terminal) = false) :
    pipelineTr step ((i, u) :: rest) res s =
      ((pipelineTr step rest (res ++ (step u s).1) (step u s).2).1,
       i :: (pipelineTr step rest (res ++ (step u s).1) (step u s).2).2) := by
  conv_lhs => rw [pipelineTr]
  rw [hcond, if_neg Bool.false_ne_true]

/-- On a one-unit tail, the unit is invoked and the loop ends either way. -/
theorem pipelineTr_single_trace {σ : Type} (step : HUnit σ → σ → List DParse × σ)
    (i : Nat) (u : HUnit σ) (res : List DParse) (s : σ) :
    (pipelineTr step [(i, u)] res s).2 = [i] := by
  by_cases hc : (!(res ++ (step u s).1).isEmpty && u.terminal) = true
  · rw [pipelineTr_cons_stop step i u [] res s hc]
  · rw [pipelineTr_cons_continue step i u [] res s (Bool.eq_false_iff.mpr hc)]
    rw [pipelineTr_nil]

/-- Claim C1 counterexample: with an empty dictionary and units
`[U0 (non-terminal, produces one result), U1 (terminal, produces nothing),
U2]`, the pipeline stops after U1 even though U1 itself produced no
results: the invoked-unit trace is `[0, 1]` and U2 (which exists, the unit
list has length 3) is never invoked. -/
theorem pipeline_stop_cex :
    exCA.dictionary.parse "w".data = some [] ∧
    (exCu1.parseFn "w".data ((exCu0.parseFn "w".data ()).2)).1 = [] ∧
    exCu1.terminal = true ∧
    exCA.units.length = 3 ∧
    exCA.parseTr "w".data = some ([exP0], [0, 1]) := by decide

/-- Claim C1 amended: when the dictionary produced nothing, the pipeline
stops after a unit exactly when that unit is terminal and the result list
accumulated so far (from all units so far, not necessarily that unit) is
non-empty.  For a configured sequence `[U0 (non-terminal), U1 (terminal),
U2]`: if the results accumulated after U1 are non-empty — in particular if
U1 itself produced a result — U2 is never invoked; if neither U0 nor U1
produced anything, U2 is still invoked. -/
theorem pipeline_terminal_stop {σ : Type} (a : MorphAnalyzer σ) (u0 u1 u2 : HUnit σ)
    (w : Word) (hu : a.units = [u0, u1, u2])
    (hd : a.dictionary.parse w = some [])
    (h0 : u0.terminal = false) (h1 : u1.terminal = true) :
    ((u0.parseFn w a.seenInit).1 ++ (u1.parseFn w (u0.parseFn w a.seenInit).2).1 ≠ [] →
      a.parseTr w =
        some ((u0.parseFn w a.seenInit).1 ++ (u1.parseFn w (u0.parseFn w a.seenInit).2).1,
              [0, 1])) ∧
    ((u0.parseFn w a.seenInit).1 = [] → (u1.parseFn w (u0.parseFn w a.seenInit).2).1 = [] →
      (a.parseTr w).map (fun r => r.2) = some [0, 1, 2]) := by
  have hTr : a.parseTr w =
      some (pipelineTr (fun u s => u.parseFn w s) a.units.enum [] a.seenInit) := by
    unfold MorphAnalyzer.parseTr
    rw [hd]
    rfl
  have henum : ([u0, u1, u2] : List (HUnit σ)).enum = [(0, u0), (1, u1), (2, u2)] := rfl
  have hstep0 : (!(([] : List DParse) ++ (u0.parseFn w a.seenInit).1).isEmpty &&
      u0.terminal) = false := by
    rw [h0, Bool.and_false]
  constructor
  · intro hne
    have hstop1 : (!((([] : List DParse) ++ (u0.parseFn w a.seenInit).1) ++
        (u1.parseFn w (u0.parseFn w a.seenInit).2).1).isEmpty && u1.terminal) = true := by
      rw [h1, Bool.and_true, List.nil_append, List.isEmpty_eq_false.mpr hne]
      rfl
    rw [hTr, hu, henum,
      pipelineTr_cons_continue _ 0 u0 _ [] a.seenInit hstep0,
      pipelineTr_cons_stop _ 1 u1 _ _ _ hstop1]
    simp
  · intro he0 he1
    have hgo1 : (!((([] : List DParse) ++ (u0.parseFn w a.seenInit).1) ++
        (u1.parseFn w (u0.parseFn w a.seenInit).2).1).isEmpty && u1.terminal) = false := by
      rw [he0, he1]
      rfl
    rw [hTr, hu, henum,
      pipelineTr_cons_continue _ 0 u0 _ [] a.seenInit hstep0,
      pipelineTr_cons_continue _ 1 u1 _ _ _ hgo1]
    simp [pipelineTr_single_trace]

/-- Witness for `pipeline_terminal_stop`: the terminal unit U1 produced no
result, but U0 did, so the trace stops at `[0, 1]`. -/
theorem pipeline_terminal_stop_wit :
    (exCA.units = [exCu0, exCu1, exCu2] ∧ exCA.dictionary.parse "w".data = some [] ∧
      exCu0.terminal = false ∧ exCu1.terminal = true ∧
      (exCu0.parseFn "w".data exCA.seenInit).1 ++
        (exCu1.parseFn "w".data (exCu0.parseFn "w".data exCA.seenInit).2).1 ≠ []) ∧
    exCA.parseTr "w".data =
      some ((exCu0.parseFn "w".data exCA.seenInit).1 ++
            (exCu1.parseFn "w".data (exCu0.parseFn "w".data exCA.seenInit).2).1, [0, 1]) :=
  ⟨⟨rfl, by decide, rfl, rfl, by decide⟩,
    (pipeline_terminal_stop exCA exCu0 exCu1 exCu2 "w".data rfl (by decide) rfl rfl).1
      (by decide)⟩

/- Claim C9: ownership checks on reconstruction. -/

/-- Claim C9 counterexample: `Dictionary.normalized` performs no ownership
check: called on a record whose derivation chain is non-empty and owned by
heuristic unit 5, not by the dictionary, it silently returns a slot-0
record instead of failing. -/
theorem normalized_no_check_cex :
    exForeignR.methods = [(MethodOwner.unit 5, "книгы".data)] ∧
    MethodOwner.unit 5 ≠ MethodOwner.dict exKniga.id ∧
    exKniga.normalized exForeignR =
      some ⟨"книга".data, tagSg, "книга".data, 0, 0, 1,
            [(MethodOwner.unit 5, "книгы".data)]⟩ := by decide

/-- Claim C9 amended: only lexeme reconstruction checks ownership:
`Dictionary.get_lexeme` fails with AssertionError on a record whose chain
is non-empty and not owned by this dictionary, while
`Dictionary.normalized` performs no such check and returns a slot-0 record
regardless of the chain's owner. -/
theorem ownership_check (d : Dict) (form : DParse) (owner : MethodOwner) (wd : Word)
    (rest : Methods) (h : owner ≠ MethodOwner.dict d.id) :
    d.get_lexeme form ((owner, wd) :: rest) = .error .assertionError ∧
    (∀ tg, d.build_tag_info form.para_id 0 = some tg → form.idx ≠ 0 →
      d.normalized form =
        some ⟨form.normal_form, tg, form.normal_form, form.para_id, 0, form.estimate,
              form.methods⟩) := by
  constructor
  · unfold Dict.get_lexeme
    simp [beq_iff_eq, h]
  · intro tg htg hidx
    unfold Dict.normalized
    rw [if_neg hidx]
    simp [htg]

/-- Witness for `ownership_check` on the foreign-chain record. -/
theorem ownership_check_wit :
    (MethodOwner.unit 5 ≠ MethodOwner.dict exKniga.id ∧
      exKniga.build_tag_info exForeignR.para_id 0 = some tagSg ∧ exForeignR.idx ≠ 0) ∧
    (exKniga.get_lexeme exForeignR [(MethodOwner.unit 5, "книгы".data)] =
        .error .assertionError ∧
      exKniga.normalized exForeignR =
        some ⟨exForeignR.normal_form, tagSg, exForeignR.normal_form, exForeignR.para_id, 0,
              exForeignR.estimate, exForeignR.methods⟩) :=
  ⟨⟨by decide, by decide, by decide⟩,
    ⟨(ownership_check exKniga exForeignR (MethodOwner.unit 5) "книгы".data [] (by decide)).1,
      (ownership_check exKniga exForeignR (MethodOwner.unit 5) "книгы".data [] (by decide)).2
        tagSg (by decide) (by decide)⟩⟩

end Pymorphy
